import Mathlib

/-!
Shallow embedding of the `simple_slip` SLIP framing codec (Rust crate
`sam-peach/simple_slip`, files `src/encoder.rs`, `src/decoder.rs`,
`src/error.rs`) into Lean 4, together with proofs deciding the
specification claims about it.

Conventions of the embedding:
- Rust byte buffers (`&[u8]` / `Vec<u8>`) are `List Nat`; no arithmetic is
  performed on the byte values, so no wrap-around modelling is needed.
- `Result<T, SlipError>` is `SlipResult`; a Rust panic (index out of
  bounds, integer underflow, `.unwrap()` on `Err`, slice range inversion)
  is modelled by the `none` value of an outer `Option` layer.
- Index-based `while` loops over a buffer are embedded as structural
  recursion over the still-unread suffix of the list, carrying the
  absolute index where the source returns or compares indices.
-/

namespace SimpleSlip

/-- Modelled from the spec: `src/constants.rs` is not part of the provided
sources; the four reserved byte values are fixed by the spec (§3, §6) and
by the doctests in `src/encoder.rs` / `src/decoder.rs`. Frame delimiter. -/
def END : Nat := 0xC0

/-- Modelled from the spec: escape marker (`ESC = 0xDB`). -/
def ESC : Nat := 0xDB

/-- Modelled from the spec: stand-in for a literal END (`ESC_END = 0xDC`). -/
def ESC_END : Nat := 0xDC

/-- Modelled from the spec: stand-in for a literal ESC (`ESC_ESC = 0xDD`). -/
def ESC_ESC : Nat := 0xDD

/-- `SlipError` from `src/error.rs`. -/
inductive SlipError : Type
  | NoEndDelimiter : SlipError
  | InvalidEncoding : SlipError
deriving DecidableEq, Repr

/-- Rust's `Result<A, SlipError>`. -/
inductive SlipResult (A : Type) : Type
  | ok (val : A) : SlipResult A
  | error (e : SlipError) : SlipResult A
deriving DecidableEq, Repr

/-- The per-byte escaping transform performed inside `encode`'s loop
(`src/encoder.rs` lines 24-36): `END` becomes the pair `ESC, ESC_END`,
`ESC` becomes the pair `ESC, ESC_ESC`, anything else passes through. -/
def esc_byte (byte : Nat) : List Nat :=
  if byte = END then [ESC, ESC_END]
  else if byte = ESC then [ESC, ESC_ESC]
  else [byte]

/-- `encode` from `src/encoder.rs`: start from `vec![END]`, extend per
byte, push a trailing `END`, and return `Ok`. -/
def encode (raw_buffer : List Nat) : SlipResult (List Nat) :=
  let encoded_buffer :=
    raw_buffer.foldl
      (fun acc byte =>
        if byte = END then acc ++ [ESC, ESC_END]
        else if byte = ESC then acc ++ [ESC, ESC_ESC]
        else acc ++ [byte])
      [END]
  .ok (encoded_buffer ++ [END])

/-- Loop of `find_delimiter` (`src/decoder.rs` lines 153-165): scan
forward over the buffer carrying the absolute index `i`.  On the first
`END` byte the source reads `buffer[i + 1]`, which panics (`none`) when
that `END` is the final byte; two consecutive `END`s yield `i + 1`. -/
def find_delimiter_go : List Nat → Nat → Option (SlipResult Nat)
  | [], _ => some (.error .NoEndDelimiter)
  | byte :: rest, i =>
    if byte = END then
      match rest with
      | [] => none
      | next :: _ => if next = END then some (.ok (i + 1)) else some (.ok i)
    else find_delimiter_go rest (i + 1)

/-- `find_delimiter` from `src/decoder.rs`. -/
def find_delimiter (buffer : List Nat) : Option (SlipResult Nat) :=
  find_delimiter_go buffer 0

/-- Loop of `find_next_delimiter` (`src/decoder.rs` lines 167-178):
starting from absolute index `idx`, return the index of the first `END`
byte, `none` when the rest of the buffer holds no `END`. -/
def find_next_go : List Nat → Nat → Option Nat
  | [], _ => none
  | byte :: rest, idx => if byte = END then some idx else find_next_go rest (idx + 1)

/-- `find_next_delimiter` from `src/decoder.rs`. -/
def find_next_delimiter (buffer : List Nat) (start_idx : Nat) : Option Nat :=
  find_next_go (buffer.drop start_idx) start_idx

/-- Loop of `find_last_delimiter` (`src/decoder.rs` lines 180-193): the
source iterates `buffer.iter().rev()` with `idx = len - 1 - i`, embedded
here as a forward walk over the reversed buffer carrying `idx`.  On the
first `END` found it reads `buffer[idx - 1]`, which panics (`none`) when
`idx = 0` (usize underflow / out-of-bounds); in the reversed list
`buffer[idx - 1]` is the next element. -/
def find_last_go : List Nat → Nat → Option (SlipResult Nat)
  | [], _ => some (.error .NoEndDelimiter)
  | byte :: rest, idx =>
    if byte = END then
      if idx = 0 then none
      else if rest.getD 0 0 = END then some (.ok (idx - 1)) else some (.ok idx)
    else find_last_go rest (idx - 1)

/-- `find_last_delimiter` from `src/decoder.rs`. -/
def find_last_delimiter (buffer : List Nat) : Option (SlipResult Nat) :=
  find_last_go buffer.reverse (buffer.length - 1)

/-- `calc_decode_buffer_size` from `src/decoder.rs` lines 195-214: one
output byte per `ESC` (skipping the escaped successor, `idx += 2`), zero
per `END`, one per ordinary byte. -/
def calc_decode_buffer_size : List Nat → Nat
  | [] => 0
  | [byte] => if byte = ESC then 1 else if byte ≠ END then 1 else 0
  | byte :: next :: rest =>
    if byte = ESC then 1 + calc_decode_buffer_size rest
    else if byte ≠ END then 1 + calc_decode_buffer_size (next :: rest)
    else calc_decode_buffer_size (next :: rest)

/-- `unescape` from `src/decoder.rs` lines 216-229.  The source writes
`write_buffer[write_idx]` before returning `(read_idx + 2, write_idx + 1)`;
a write past the end of the `Vec` panics (`none`).  The advance of the
read cursor by 2 is realised by the caller continuing on the
sub-suffix, so only the updated buffer and write index are returned. -/
def unescape (val : Nat) (write_idx : Nat) (write_buffer : List Nat) :
    Option (SlipResult (List Nat × Nat)) :=
  if val = ESC_ESC then
    if write_idx < write_buffer.length then
      some (.ok (write_buffer.set write_idx ESC, write_idx + 1))
    else none
  else if val = ESC_END then
    if write_idx < write_buffer.length then
      some (.ok (write_buffer.set write_idx END, write_idx + 1))
    else none
  else some (.error .InvalidEncoding)

/-- The transcoding `while` loop shared verbatim by `decode`
(`src/decoder.rs` lines 32-52) and `simple_decode` (lines 130-150): the
first argument is the unread suffix of the encoded buffer (read cursor),
the second the output buffer, the third the write cursor.  On `ESC` the
source reads `encoded_buffer[read_idx + 1]`, panicking (`none`) when the
`ESC` is the last byte; `END` only advances the read cursor; an ordinary
byte is written through `decoded_buffer[write_idx] = byte`, panicking
(`none`) when the write cursor is past the output buffer.  The final
state `(decoded_buffer, write_idx)` is returned. -/
def decode_loop : List Nat → List Nat → Nat → Option (SlipResult (List Nat × Nat))
  | [], out, write_idx => some (.ok (out, write_idx))
  | byte :: rest, out, write_idx =>
    if byte = ESC then
      match rest with
      | [] => none
      | next_byte :: rest2 =>
        match unescape next_byte write_idx out with
        | none => none
        | some (.error e) => some (.error e)
        | some (.ok (out2, write_idx2)) => decode_loop rest2 out2 write_idx2
    else if byte = END then decode_loop rest out write_idx
    else if write_idx < out.length then
      decode_loop rest (out.set write_idx byte) (write_idx + 1)
    else none

/-- `decode` from `src/decoder.rs` lines 21-55: find the frame start and
end, size the output from the slice `[trim_start..trim_end]` (a Rust
slice panics, `none`, when the range is inverted), then run the
transcode loop from `read_idx = trim_start` up to the end of the whole
buffer and return the output buffer. -/
def decode (encoded_buffer : List Nat) : Option (SlipResult (List Nat)) :=
  match find_delimiter encoded_buffer with
  | none => none
  | some (.error e) => some (.error e)
  | some (.ok trim_start) =>
    match find_last_delimiter encoded_buffer with
    | none => none
    | some (.error e) => some (.error e)
    | some (.ok trim_end) =>
      if trim_start ≤ trim_end ∧ trim_end ≤ encoded_buffer.length then
        let decoded_buffer_size :=
          calc_decode_buffer_size
            ((encoded_buffer.drop trim_start).take (trim_end - trim_start))
        match decode_loop (encoded_buffer.drop trim_start)
            (List.replicate decoded_buffer_size 0) 0 with
        | none => none
        | some (.error e) => some (.error e)
        | some (.ok (out, _)) => some (.ok out)
      else none

/-- `simple_decode` from `src/decoder.rs` lines 127-151: the same loop as
`decode`, but `unescape`'s `Err` is `.unwrap()`ed, i.e. it panics
(`none`). -/
def simple_decode (encoded_buffer : List Nat) (decoded_buffer : List Nat) :
    Option (List Nat) :=
  match decode_loop encoded_buffer decoded_buffer 0 with
  | some (.ok (out, _)) => some out
  | some (.error _) => none
  | none => none

/-- Bounds of a successful `find_next_go` scan. -/
theorem find_next_go_bounds :
    ∀ (l : List Nat) (i e : Nat), find_next_go l i = some e → i ≤ e ∧ e < i + l.length := by
  intro l
  induction l with
  | nil => intro i e h; simp [find_next_go] at h
  | cons byte rest ih =>
    intro i e h
    simp only [find_next_go] at h
    by_cases hb : byte = END
    · rw [if_pos hb] at h
      have he : i = e := Option.some.inj h
      simp only [List.length_cons]
      omega
    · rw [if_neg hb] at h
      have := ih (i + 1) e h
      simp only [List.length_cons]
      omega

/-- Bounds of a successful `find_next_delimiter` search. -/
theorem find_next_delimiter_bounds (buffer : List Nat) (s e : Nat)
    (h : find_next_delimiter buffer s = some e) : s ≤ e ∧ e < buffer.length := by
  have hb := find_next_go_bounds (buffer.drop s) s e h
  rcases hb with ⟨h1, h2⟩
  refine ⟨h1, ?_⟩
  have hlen : (buffer.drop s).length = buffer.length - s := by simp
  omega

/-- The `while` loop of `decode_packets` (`src/decoder.rs` lines 100-122),
carrying the loop variables `idx` and `trim_start` and the accumulated
packet list.  Each found `trim_end` yields the frame slice
`[trim_start..trim_end]` (range-checked as Rust slicing is), a fresh
zeroed output buffer, and one `simple_decode` run; when no delimiter is
found the remainder `buffer[trim_start..]` is returned. -/
def decode_packets_go (buffer : List Nat) (idx trim_start : Nat)
    (acc : List (List Nat)) : Option (List (List Nat) × List Nat) :=
  if idx < buffer.length then
    match h : find_next_delimiter buffer (trim_start + 1) with
    | some trim_end =>
      if trim_start ≤ trim_end ∧ trim_end ≤ buffer.length then
        let slice := (buffer.drop trim_start).take (trim_end - trim_start)
        match simple_decode slice (List.replicate (calc_decode_buffer_size slice) 0) with
        | some pkt => decode_packets_go buffer (trim_end + 1) (trim_end + 1) (acc ++ [pkt])
        | none => none
      else none
    | none =>
      if trim_start ≤ buffer.length then some (acc, buffer.drop trim_start) else none
  else some (acc, [])
termination_by buffer.length + 1 - trim_start
decreasing_by
  have := find_next_delimiter_bounds buffer (trim_start + 1) trim_end h
  omega

/-- `decode_packets` from `src/decoder.rs` lines 94-125: the initial
`trim_start` is `find_delimiter(..).unwrap()`, so a missing delimiter or
a delimiter scan panic is a panic (`none`) here. -/
def decode_packets (encoded_buffer : List Nat) :
    Option (List (List Nat) × List Nat) :=
  match find_delimiter encoded_buffer with
  | some (.ok trim_start) => decode_packets_go encoded_buffer 0 trim_start []
  | some (.error _) => none
  | none => none

/-! ### Encoder lemmas -/

/-- Escaping a byte never yields the empty sequence. -/
theorem esc_byte_ne_nil (byte : Nat) : esc_byte byte ≠ [] := by
  unfold esc_byte
  split_ifs <;> simp

/-- No escaped output byte is the frame delimiter. -/
theorem esc_byte_ne_end (byte x : Nat) (hx : x ∈ esc_byte byte) : x ≠ END := by
  unfold esc_byte at hx
  split_ifs at hx with h1 h2
  · simp only [List.mem_cons, List.not_mem_nil, or_false] at hx
    rcases hx with hx | hx <;> subst hx <;> decide
  · simp only [List.mem_cons, List.not_mem_nil, or_false] at hx
    rcases hx with hx | hx <;> subst hx <;> decide
  · simp only [List.mem_cons, List.not_mem_nil, or_false] at hx
    subst hx
    exact h1

/-- No byte of a fully escaped payload is the frame delimiter. -/
theorem flat_esc_ne_end (P : List Nat) : ∀ x ∈ P.flatMap esc_byte, x ≠ END := by
  intro x hx
  rcases List.mem_flatMap.mp hx with ⟨b, _, hb⟩
  exact esc_byte_ne_end b x hb

/-- An escaped nonempty payload starts with a byte that is not the
delimiter. -/
theorem flat_esc_head (P : List Nat) (h : P ≠ []) :
    ∃ a t, P.flatMap esc_byte = a :: t ∧ a ≠ END := by
  match P with
  | [] => exact absurd rfl h
  | b :: rest =>
    rw [List.flatMap_cons]
    have hb : ∃ a t0, esc_byte b = a :: t0 ∧ a ≠ END := by
      unfold esc_byte
      split_ifs with h1 h2
      · exact ⟨ESC, [ESC_END], rfl, by decide⟩
      · exact ⟨ESC, [ESC_ESC], rfl, by decide⟩
      · exact ⟨b, [], rfl, h1⟩
    rcases hb with ⟨a, t0, heq, ha⟩
    exact ⟨a, t0 ++ rest.flatMap esc_byte, by rw [heq]; simp, ha⟩

/-- The escaped payload of a nonempty payload ends with a byte that is
not the delimiter. -/
theorem flat_esc_getLast (P : List Nat) (h : P ≠ []) :
    ∃ a t, P.flatMap esc_byte = t ++ [a] ∧ a ≠ END := by
  have hne : P.flatMap esc_byte ≠ [] := by
    match P with
    | b :: rest =>
      rw [List.flatMap_cons]
      intro hc
      exact esc_byte_ne_nil b (List.append_eq_nil.mp hc).1
  rcases List.eq_nil_or_concat (P.flatMap esc_byte) with hc | ⟨t, a, hc⟩
  · exact absurd hc hne
  · rw [List.concat_eq_append] at hc
    refine ⟨a, t, hc, ?_⟩
    apply flat_esc_ne_end P
    rw [hc]
    simp

/-- `encode`'s fold, run from any accumulator, appends exactly the
per-byte escape expansion of the payload. -/
theorem encode_foldl (raw : List Nat) : ∀ acc : List Nat,
    raw.foldl
      (fun acc byte =>
        if byte = END then acc ++ [ESC, ESC_END]
        else if byte = ESC then acc ++ [ESC, ESC_ESC]
        else acc ++ [byte]) acc
      = acc ++ raw.flatMap esc_byte := by
  induction raw with
  | nil => intro acc; simp
  | cons b rest ih =>
    intro acc
    simp only [List.foldl_cons, List.flatMap_cons]
    rw [ih]
    unfold esc_byte
    split_ifs <;> simp

/-- Closed form of `encode`: a leading delimiter, the escaped payload,
and a trailing delimiter, always returned as `Ok`. -/
theorem encode_eq (raw : List Nat) :
    encode raw = .ok (END :: raw.flatMap esc_byte ++ [END]) := by
  unfold encode
  rw [encode_foldl]
  simp

/-- Claim C5: for every raw payload, `encode` never fails and returns one
leading `END`, then each input byte escaped (`END ↦ ESC,ESC_END`;
`ESC ↦ ESC,ESC_ESC`; other bytes unchanged, as `esc_byte` states), then
one trailing `END`; the result has length at least 2; and concretely
`encode [0x01,0xDB,0x49,0xC0,0x15]` is
`[0xC0,0x01,0xDB,0xDD,0x49,0xDB,0xDC,0x15,0xC0]`. -/
theorem encode_spec (raw_buffer : List Nat) :
    encode raw_buffer = .ok (END :: raw_buffer.flatMap esc_byte ++ [END]) ∧
    2 ≤ (END :: raw_buffer.flatMap esc_byte ++ [END]).length ∧
    encode [0x01, 0xDB, 0x49, 0xC0, 0x15] =
      .ok [0xC0, 0x01, 0xDB, 0xDD, 0x49, 0xDB, 0xDC, 0x15, 0xC0] := by
  refine ⟨encode_eq raw_buffer, ?_, by decide⟩
  simp [List.length_append, List.length_cons]

/-! ### Delimiter search lemmas -/

/-- A buffer without `END` makes the forward scan report the error. -/
theorem find_delimiter_go_no_end (l : List Nat) :
    ∀ i, (∀ x ∈ l, x ≠ END) → find_delimiter_go l i = some (.error .NoEndDelimiter) := by
  induction l with
  | nil => intro i _; rfl
  | cons b rest ih =>
    intro i h
    have hb : b ≠ END := h b (by simp)
    simp only [find_delimiter_go, if_neg hb]
    exact ih (i + 1) (fun x hx => h x (by simp [hx]))

/-- `find_delimiter` on an `END`-free buffer is `Err(NoEndDelimiter)`. -/
theorem find_delimiter_no_end (buffer : List Nat) (h : END ∉ buffer) :
    find_delimiter buffer = some (.error .NoEndDelimiter) :=
  find_delimiter_go_no_end buffer 0 (fun x hx he => h (he ▸ hx))

/-- The forward scan finds the first `END` after `END`-free noise, at the
absolute index `i + noise.length`, provided the following byte is not a
second `END`. -/
theorem find_delimiter_go_found (noise : List Nat) :
    ∀ (i b : Nat) (rest : List Nat), (∀ x ∈ noise, x ≠ END) → b ≠ END →
      find_delimiter_go (noise ++ END :: b :: rest) i = some (.ok (i + noise.length)) := by
  induction noise with
  | nil =>
    intro i b rest _ hb
    simp [find_delimiter_go, hb]
  | cons n noise ih =>
    intro i b rest h hb
    have hn : n ≠ END := h n (by simp)
    simp only [List.cons_append, find_delimiter_go, if_neg hn, List.length_cons]
    have heq : i + (noise.length + 1) = (i + 1) + noise.length := by omega
    rw [heq]
    exact ih (i + 1) b rest (fun x hx => h x (List.mem_cons_of_mem n hx)) hb

/-- `find_delimiter` on noise followed by a frame start. -/
theorem find_delimiter_found (noise : List Nat) (b : Nat) (rest : List Nat)
    (h : ∀ x ∈ noise, x ≠ END) (hb : b ≠ END) :
    find_delimiter (noise ++ END :: b :: rest) = some (.ok noise.length) := by
  have := find_delimiter_go_found noise 0 b rest h hb
  simpa [find_delimiter] using this

/-- The backward scan on a buffer ending `.. ++ [w, END]` with `w ≠ END`
returns the index of that final `END`. -/
theorem find_last_delimiter_concat (t : List Nat) (w : Nat) (hw : w ≠ END) :
    find_last_delimiter (t ++ [w] ++ [END]) = some (.ok (t.length + 1)) := by
  unfold find_last_delimiter
  have hrev : (t ++ [w] ++ [END]).reverse = END :: w :: t.reverse := by simp
  have hlen : (t ++ [w] ++ [END]).length - 1 = t.length + 1 := by simp
  rw [hrev, hlen]
  simp [find_last_go, hw]

/-! ### Size precomputation lemmas -/

/-- An ordinary byte contributes one to the size pass. -/
theorem calc_cons_ord (b : Nat) (t : List Nat) (hb1 : b ≠ ESC) (hb2 : b ≠ END) :
    calc_decode_buffer_size (b :: t) = 1 + calc_decode_buffer_size t := by
  cases t with
  | nil => simp [calc_decode_buffer_size, hb1, hb2]
  | cons c r => simp [calc_decode_buffer_size, hb1, hb2]

/-- A delimiter byte contributes nothing to the size pass. -/
theorem calc_cons_end (t : List Nat) :
    calc_decode_buffer_size (END :: t) = calc_decode_buffer_size t := by
  have h1 : ¬(END = ESC) := by decide
  cases t with
  | nil => decide
  | cons c r => simp [calc_decode_buffer_size, h1]

/-- An escape pair contributes one to the size pass, skipping its second
byte. -/
theorem calc_esc_pair (x : Nat) (t : List Nat) :
    calc_decode_buffer_size (ESC :: x :: t) = 1 + calc_decode_buffer_size t := by
  simp [calc_decode_buffer_size]

/-- The size pass over an escaped payload counts exactly the payload
length. -/
theorem calc_flat_esc (P : List Nat) :
    calc_decode_buffer_size (P.flatMap esc_byte) = P.length := by
  induction P with
  | nil => rfl
  | cons b rest ih =>
    rw [List.flatMap_cons]
    by_cases hb1 : b = END
    · rw [(by rw [hb1]; decide : esc_byte b = [ESC, ESC_END])]
      simp only [List.cons_append, List.nil_append, calc_esc_pair, ih, List.length_cons]
      omega
    · by_cases hb2 : b = ESC
      · rw [(by rw [hb2]; decide : esc_byte b = [ESC, ESC_ESC])]
        simp only [List.cons_append, List.nil_append, calc_esc_pair, ih, List.length_cons]
        omega
      · rw [(by simp [esc_byte, hb1, hb2] : esc_byte b = [b]), List.singleton_append,
          calc_cons_ord b _ hb2 hb1, ih]
        simp only [List.length_cons]
        omega

/-! ### Output-buffer surgery helpers -/

/-- Writing at index `i` then taking `i + 1` elements appends the written
value to the unchanged first `i` elements. -/
theorem set_take_succ : ∀ (l : List Nat) (i v : Nat), i < l.length →
    (l.set i v).take (i + 1) = l.take i ++ [v]
  | [], i, v, h => by simp at h
  | a :: t, 0, v, _ => by simp
  | a :: t, i + 1, v, h => by
    simp only [List.set_cons_succ, List.take_succ_cons, List.cons_append]
    rw [set_take_succ t i v (by simpa using h)]

/-- Writing below index `j` leaves the `drop j` suffix unchanged. -/
theorem set_drop_ge : ∀ (l : List Nat) (i j v : Nat), i < j →
    (l.set i v).drop j = l.drop j
  | [], _, _, _, _ => by simp
  | a :: t, 0, j, v, h => by
    cases j with
    | zero => omega
    | succ j2 => simp [List.set]
  | a :: t, i + 1, j, v, h => by
    cases j with
    | zero => omega
    | succ j2 =>
      simp only [List.set_cons_succ, List.drop_succ_cons]
      exact set_drop_ge t i j2 v (by omega)

/-! ### Transcode-loop step lemmas -/

/-- One loop step on an `ESC, ESC_END` pair writes a literal `END`. -/
theorem decode_loop_esc_end_step (l out : List Nat) (w : Nat) (hw : w < out.length) :
    decode_loop (ESC :: ESC_END :: l) out w = decode_loop l (out.set w END) (w + 1) := by
  have h1 : ¬(ESC_END = ESC_ESC) := by decide
  simp [decode_loop, unescape, h1, hw]

/-- One loop step on an `ESC, ESC_ESC` pair writes a literal `ESC`. -/
theorem decode_loop_esc_esc_step (l out : List Nat) (w : Nat) (hw : w < out.length) :
    decode_loop (ESC :: ESC_ESC :: l) out w = decode_loop l (out.set w ESC) (w + 1) := by
  simp [decode_loop, unescape, hw]

/-- One loop step on a delimiter byte only advances the read cursor. -/
theorem decode_loop_end_step (l out : List Nat) (w : Nat) :
    decode_loop (END :: l) out w = decode_loop l out w := by
  have h1 : ¬(END = ESC) := by decide
  cases l with
  | nil => simp [decode_loop, h1]
  | cons c r => simp [decode_loop, h1]

/-- One loop step on an ordinary byte copies it through. -/
theorem decode_loop_ord_step (b : Nat) (l out : List Nat) (w : Nat)
    (hb1 : b ≠ ESC) (hb2 : b ≠ END) (hw : w < out.length) :
    decode_loop (b :: l) out w = decode_loop l (out.set w b) (w + 1) := by
  cases l with
  | nil => simp [decode_loop, hb1, hb2, hw]
  | cons c r => simp [decode_loop, hb1, hb2, hw]

/-- Continuation step shared by the three write cases of
`decode_loop_flat`: after writing `b` at the cursor, the induction
hypothesis describes the rest of the payload. -/
theorem decode_loop_write_cont (b : Nat) (rest suffix out : List Nat) (w : Nat)
    (h : w + (b :: rest).length ≤ out.length)
    (ih : ∀ (suffix out : List Nat) (w : Nat), w + rest.length ≤ out.length →
      decode_loop (rest.flatMap esc_byte ++ suffix) out w =
        decode_loop suffix (out.take w ++ rest ++ out.drop (w + rest.length))
          (w + rest.length)) :
    decode_loop (rest.flatMap esc_byte ++ suffix) (out.set w b) (w + 1) =
      decode_loop suffix (out.take w ++ (b :: rest) ++ out.drop (w + (b :: rest).length))
        (w + (b :: rest).length) := by
  have hwlt : w < out.length := by
    simp only [List.length_cons] at h
    omega
  rw [ih suffix (out.set w b) (w + 1)
    (by rw [List.length_set]; simp only [List.length_cons] at h; omega)]
  rw [set_take_succ out w b hwlt]
  rw [set_drop_ge out w (w + 1 + rest.length) b (by omega)]
  have harith : w + 1 + rest.length = w + (rest.length + 1) := by omega
  rw [harith]
  simp only [List.length_cons, List.append_assoc, List.singleton_append, List.cons_append,
    List.nil_append]

/-- Transcoding an escaped payload writes the payload verbatim into the
output buffer at the write cursor and continues on the suffix with the
cursor advanced by the payload length. -/
theorem decode_loop_flat (P : List Nat) : ∀ (suffix out : List Nat) (w : Nat),
    w + P.length ≤ out.length →
    decode_loop (P.flatMap esc_byte ++ suffix) out w =
      decode_loop suffix (out.take w ++ P ++ out.drop (w + P.length)) (w + P.length) := by
  induction P with
  | nil =>
    intro suffix out w h
    simp
  | cons b rest ih =>
    intro suffix out w h
    have hwlt : w < out.length := by
      simp only [List.length_cons] at h
      omega
    rw [List.flatMap_cons, List.append_assoc]
    by_cases hb1 : b = END
    · rw [(by rw [hb1]; decide : esc_byte b = [ESC, ESC_END])]
      simp only [List.cons_append, List.nil_append]
      rw [decode_loop_esc_end_step _ out w hwlt, ← hb1]
      exact decode_loop_write_cont b rest suffix out w h ih
    · by_cases hb2 : b = ESC
      · rw [(by rw [hb2]; decide : esc_byte b = [ESC, ESC_ESC])]
        simp only [List.cons_append, List.nil_append]
        rw [decode_loop_esc_esc_step _ out w hwlt, ← hb2]
        exact decode_loop_write_cont b rest suffix out w h ih
      · rw [(by simp [esc_byte, hb1, hb2] : esc_byte b = [b]), List.singleton_append]
        rw [decode_loop_ord_step b _ out w hb2 hb1 hwlt]
        exact decode_loop_write_cont b rest suffix out w h ih

/-- Transcoding one full frame (leading delimiter, escaped payload,
trailing delimiter) into an exactly sized buffer yields the payload with
the write cursor at the buffer length. -/
theorem decode_loop_frame (P out : List Nat) (h : out.length = P.length) :
    decode_loop (END :: (P.flatMap esc_byte ++ [END])) out 0 =
      some (.ok (P, P.length)) := by
  rw [decode_loop_end_step, decode_loop_flat P [END] out 0 (by omega)]
  rw [decode_loop_end_step]
  have hd : out.drop (0 + P.length) = [] := by
    rw [Nat.zero_add, ← h, List.drop_length]
  rw [hd]
  simp [decode_loop]

/-- Same as `decode_loop_frame` without the trailing delimiter (the slice
shape used by `decode_packets`). -/
theorem decode_loop_frame_noend (P out : List Nat) (h : out.length = P.length) :
    decode_loop (END :: P.flatMap esc_byte) out 0 = some (.ok (P, P.length)) := by
  have hflat := decode_loop_flat P [] out 0 (by omega)
  rw [List.append_nil] at hflat
  rw [decode_loop_end_step, hflat]
  have hd : out.drop (0 + P.length) = [] := by
    rw [Nat.zero_add, ← h, List.drop_length]
  rw [hd]
  simp [decode_loop]

/-- `simple_decode` on one frame slice with the exactly precomputed
buffer size returns the payload. -/
theorem simple_decode_frame (P : List Nat) :
    simple_decode (END :: P.flatMap esc_byte)
      (List.replicate (calc_decode_buffer_size (END :: P.flatMap esc_byte)) 0) =
      some P := by
  have hc : calc_decode_buffer_size (END :: P.flatMap esc_byte) = P.length := by
    rw [calc_cons_end, calc_flat_esc]
  unfold simple_decode
  rw [hc, decode_loop_frame_noend P _ (by simp)]

/-- `decode` on `END`-free leading noise followed by one complete frame
returns the raw payload (nonempty payloads; the empty payload makes
`decode` panic, see the claim C1 counterexample). -/
theorem decode_spec (noise P : List Nat) (hn : ∀ x ∈ noise, x ≠ END) (hP : P ≠ []) :
    decode (noise ++ (END :: (P.flatMap esc_byte ++ [END]))) = some (.ok P) := by
  obtain ⟨a, t, hhead, ha⟩ := flat_esc_head P hP
  obtain ⟨z, t0, hlast, hz⟩ := flat_esc_getLast P hP
  have hfd : find_delimiter (noise ++ (END :: (P.flatMap esc_byte ++ [END])))
      = some (.ok noise.length) := by
    rw [hhead, List.cons_append]
    exact find_delimiter_found noise a (t ++ [END]) hn ha
  have hre : noise ++ (END :: (P.flatMap esc_byte ++ [END]))
      = ((noise ++ END :: t0) ++ [z]) ++ [END] := by
    rw [hlast]
    simp
  have hfl : find_last_delimiter (noise ++ (END :: (P.flatMap esc_byte ++ [END])))
      = some (.ok ((noise ++ END :: t0).length + 1)) := by
    rw [hre]
    exact find_last_delimiter_concat (noise ++ END :: t0) z hz
  have hlen0 : (noise ++ END :: t0).length = noise.length + t0.length + 1 := by
    rw [List.length_append, List.length_cons]
    omega
  have hblen : (noise ++ (END :: (P.flatMap esc_byte ++ [END]))).length
      = noise.length + t0.length + 3 := by
    rw [hre]
    simp only [List.length_append, List.length_cons, List.length_nil, hlen0]
    try omega
  simp only [decode, hfd, hfl]
  rw [if_pos (by constructor <;> omega)]
  have hdrop : (noise ++ (END :: (P.flatMap esc_byte ++ [END]))).drop noise.length
      = END :: (P.flatMap esc_byte ++ [END]) := List.drop_left noise _
  rw [hdrop]
  have htake : (END :: (P.flatMap esc_byte ++ [END])).take
      ((noise ++ END :: t0).length + 1 - noise.length) = END :: P.flatMap esc_byte := by
    have hq : (noise ++ END :: t0).length + 1 - noise.length = t0.length + 2 := by omega
    rw [hq, hlast]
    have hsplit : END :: ((t0 ++ [z]) ++ [END]) = (END :: (t0 ++ [z])) ++ [END] := by
      simp
    rw [hsplit]
    have hlen1 : (END :: (t0 ++ [z])).length = t0.length + 2 := by
      simp
    rw [← hlen1, List.take_left]
  rw [htake]
  have hc : calc_decode_buffer_size (END :: P.flatMap esc_byte) = P.length := by
    rw [calc_cons_end, calc_flat_esc]
  rw [hc, decode_loop_frame P _ (by simp)]

/-! ### Claims about `encode`/`decode` -/

/-- Claim C1 (amended): for every nonempty raw payload `P`, `decode`
applied to `encode(P)` succeeds and returns exactly `P`.  (As stated,
over all payloads including the empty one, the claim is false: see the
counterexample `decode_encode_empty_panics`.) -/
theorem decode_encode_roundtrip_nonempty (P : List Nat) (hP : P ≠ []) :
    ∃ framed, encode P = .ok framed ∧ decode framed = some (.ok P) := by
  refine ⟨END :: P.flatMap esc_byte ++ [END], encode_eq P, ?_⟩
  have h := decode_spec [] P (by simp) hP
  simpa using h

/-- Witness for `decode_encode_roundtrip_nonempty` at the payload
`[0x05]`. -/
theorem decode_encode_roundtrip_witness :
    ([0x05] : List Nat) ≠ [] ∧
    ∃ framed, encode [0x05] = .ok framed ∧ decode framed = some (.ok [0x05]) :=
  ⟨by decide, decode_encode_roundtrip_nonempty [0x05] (by decide)⟩

/-- Counterexample to claim C1 as stated: on the empty payload, `encode`
returns the two-delimiter frame `[0xC0, 0xC0]`, but `decode` of that
frame panics (the doubled-delimiter skip sets `trim_start = 1` while the
backward scan sets `trim_end = 0`, so the Rust slice `[1..0]` panics)
instead of returning the empty payload. -/
theorem decode_encode_empty_panics :
    encode [] = .ok [0xC0, 0xC0] ∧ decode [0xC0, 0xC0] = none := by decide

/-- Claim C6: `decode` on a buffer containing no `END` byte anywhere
returns `Err(NoEndDelimiter)`. -/
theorem decode_no_delimiter_error (buffer : List Nat) (h : END ∉ buffer) :
    decode buffer = some (.error .NoEndDelimiter) := by
  simp only [decode, find_delimiter_no_end buffer h]

/-- Witness for `decode_no_delimiter_error` at `[0x01, 0x02, 0x03]`
(concrete scenario 3 of the spec). -/
theorem decode_no_delimiter_error_witness :
    END ∉ ([0x01, 0x02, 0x03] : List Nat) ∧
    decode [0x01, 0x02, 0x03] = some (.error .NoEndDelimiter) :=
  ⟨by decide, decode_no_delimiter_error [0x01, 0x02, 0x03] (by decide)⟩

/-- Claim C7: on a valid framed input (optional `END`-free leading
noise, one complete frame of a nonempty payload), the size pass over the
scanned slice counts exactly the payload length, the transcode pass run
on the exactly-sized zeroed allocation terminates with the write cursor
equal to that size having filled the buffer exactly (no out-of-range
write, hence no `none`), and `decode` returns the payload. -/
theorem decode_size_precompute_exact (noise P : List Nat)
    (hn : ∀ x ∈ noise, x ≠ END) (hP : P ≠ []) :
    calc_decode_buffer_size (END :: P.flatMap esc_byte) = P.length ∧
    decode_loop (END :: (P.flatMap esc_byte ++ [END])) (List.replicate P.length 0) 0
      = some (.ok (P, P.length)) ∧
    decode (noise ++ (END :: (P.flatMap esc_byte ++ [END]))) = some (.ok P) := by
  refine ⟨by rw [calc_cons_end, calc_flat_esc], ?_, decode_spec noise P hn hP⟩
  exact decode_loop_frame P _ (by simp)

/-- Witness for `decode_size_precompute_exact` with noise `[0xA1]` and
payload `[0x01, 0xC0]`. -/
theorem decode_size_precompute_witness :
    (∀ x ∈ ([0xA1] : List Nat), x ≠ END) ∧
    ([0x01, 0xC0] : List Nat) ≠ [] ∧
    (calc_decode_buffer_size (END :: ([0x01, 0xC0] : List Nat).flatMap esc_byte) = 2 ∧
     decode_loop (END :: (([0x01, 0xC0] : List Nat).flatMap esc_byte ++ [END]))
        (List.replicate 2 0) 0 = some (.ok ([0x01, 0xC0], 2)) ∧
     decode ([0xA1] ++ (END :: (([0x01, 0xC0] : List Nat).flatMap esc_byte ++ [END])))
        = some (.ok [0x01, 0xC0])) :=
  ⟨by decide, by decide, by
    simpa using decode_size_precompute_exact [0xA1] [0x01, 0xC0] (by decide) (by decide)⟩

/-- Claim C2 (as the code actually behaves): `decode_packets` on a buffer
with no `END` byte anywhere panics (`find_delimiter(..).unwrap()` on
`Err(NoEndDelimiter)`), rather than returning an empty packet list and
the whole buffer as remainder as the spec requires. -/
theorem decode_packets_no_delimiter_panics (buffer : List Nat) (h : END ∉ buffer) :
    decode_packets buffer = none := by
  simp only [decode_packets, find_delimiter_no_end buffer h]

/-- Witness for `decode_packets_no_delimiter_panics` at
`[0x01, 0x02, 0x03]`. -/
theorem decode_packets_no_delimiter_panics_witness :
    END ∉ ([0x01, 0x02, 0x03] : List Nat) ∧
    decode_packets [0x01, 0x02, 0x03] = none :=
  ⟨by decide, decode_packets_no_delimiter_panics [0x01, 0x02, 0x03] (by decide)⟩

/-- Claim C4 (as the code actually behaves): an `ESC` followed in bounds
by a byte other than `ESC_END`/`ESC_ESC` does yield `Err(InvalidEncoding)`
(second conjunct), but a bare trailing `ESC` at the end of the scanned
range makes `decode` read `encoded_buffer[read_idx + 1]` out of bounds
and panic (first conjunct), not fail with `InvalidEncoding`. -/
theorem decode_trailing_esc_behaviour :
    decode [0xC0, 0x01, 0xC0, 0xDB] = none ∧
    decode [0xC0, 0xDB, 0x05, 0xC0] = some (.error .InvalidEncoding) := by decide

/-- Claim C9 (as the code actually behaves): with trailing noise after a
frame delimited at both ends, `find_last_delimiter` does locate the true
frame end by the backward scan (first conjunct), but `decode` then runs
its transcode loop to the end of the whole buffer, writes the noise byte
past the exactly-sized allocation, and panics (second conjunct), instead
of returning the frame's payload unaffected. -/
theorem decode_trailing_noise_panics :
    find_last_delimiter [0xC0, 0x01, 0xC0, 0x02] = some (.ok 2) ∧
    decode [0xC0, 0x01, 0xC0, 0x02] = none := by decide

/-- Claim C10: `decode` panics on some inputs that do contain an `END`
byte: on `[0xC0]` the forward scan reads `buffer[i + 1]` one past the
end, and on `[0xC0, 0x01]` the backward scan computes `idx - 1` below
zero (usize underflow / out-of-bounds); both surface as panics of
`decode` rather than `Result` values. -/
theorem decode_delimiter_edge_panics :
    find_delimiter [0xC0] = none ∧ decode [0xC0] = none ∧
    find_last_delimiter [0xC0, 0x01] = none ∧ decode [0xC0, 0x01] = none := by decide

/-! ### Streaming decoder lemmas -/

/-- One fully delimited frame of a payload, exactly as `encode` produces
it: leading delimiter, escaped payload, trailing delimiter. -/
def frame (P : List Nat) : List Nat := END :: (P.flatMap esc_byte ++ [END])

/-- The forward scan of `find_next_go` finds nothing in an `END`-free
suffix. -/
theorem find_next_go_no_end (l : List Nat) :
    ∀ i, (∀ x ∈ l, x ≠ END) → find_next_go l i = none := by
  induction l with
  | nil => intro i _; rfl
  | cons b rest ih =>
    intro i h
    have hb : b ≠ END := h b (by simp)
    simp only [find_next_go, if_neg hb]
    exact ih (i + 1) (fun x hx => h x (by simp [hx]))

/-- The forward scan of `find_next_go` over an `END`-free prelude finds
the delimiter right after it. -/
theorem find_next_go_found (pre : List Nat) :
    ∀ (i : Nat) (rest : List Nat), (∀ x ∈ pre, x ≠ END) →
      find_next_go (pre ++ END :: rest) i = some (i + pre.length) := by
  induction pre with
  | nil =>
    intro i rest _
    simp [find_next_go]
  | cons n pre ih =>
    intro i rest h
    have hn : n ≠ END := h n (by simp)
    simp only [List.cons_append, find_next_go, if_neg hn, List.length_cons]
    have heq : i + (pre.length + 1) = (i + 1) + pre.length := by omega
    rw [heq]
    exact ih (i + 1) rest (fun x hx => h x (List.mem_cons_of_mem n hx))

/-- `find_next_delimiter` on a start position whose suffix is `END`-free
returns nothing. -/
theorem find_next_delimiter_no_end (buffer : List Nat) (s : Nat)
    (h : ∀ x ∈ buffer.drop s, x ≠ END) : find_next_delimiter buffer s = none :=
  find_next_go_no_end (buffer.drop s) s h

/-- `find_next_delimiter` on a start position whose suffix is an
`END`-free prelude followed by `END` returns the delimiter's absolute
index. -/
theorem find_next_delimiter_found (buffer : List Nat) (s : Nat) (pre rest : List Nat)
    (hdrop : buffer.drop s = pre ++ END :: rest) (hpre : ∀ x ∈ pre, x ≠ END) :
    find_next_delimiter buffer s = some (s + pre.length) := by
  unfold find_next_delimiter
  rw [hdrop]
  exact find_next_go_found pre s rest hpre

/-- Main invariant of the `decode_packets` loop: if the suffix of the
buffer from `trim_start` consists of fully delimited frames of nonempty
payloads followed by a remainder that is either empty or a delimiter
followed by `END`-free bytes, the loop appends exactly the payloads to
the accumulator and returns that remainder. -/
theorem decode_packets_go_spec (Ps : List (List Nat)) :
    ∀ (buffer : List Nat) (idx trim_start : Nat) (acc : List (List Nat)) (R : List Nat),
    buffer.drop trim_start = Ps.flatMap frame ++ R →
    idx ≤ trim_start → trim_start ≤ buffer.length →
    (∀ P ∈ Ps, P ≠ []) →
    (R = [] ∨ ∃ tl, R = END :: tl ∧ (∀ x ∈ tl, x ≠ END)) →
    decode_packets_go buffer idx trim_start acc = some (acc ++ Ps, R) := by
  induction Ps with
  | nil =>
    intro buffer idx trim_start acc R hdrop hidx hts hPs hR
    rw [List.flatMap_nil, List.nil_append] at hdrop
    rcases hR with hR | ⟨tl, hR, htl⟩
    · subst hR
      by_cases hil : idx < buffer.length
      · have hfn : find_next_delimiter buffer (trim_start + 1) = none := by
          apply find_next_delimiter_no_end
          have hnil : buffer.drop (trim_start + 1) = [] := by
            apply List.drop_eq_nil_of_le
            have := congrArg List.length hdrop
            simp at this
            omega
          rw [hnil]
          intro x hx
          cases hx
        rw [decode_packets_go.eq_def, if_pos hil]
        split
        next trim_end heq =>
          rw [hfn] at heq
          cases heq
        next heq =>
          rw [if_pos hts, hdrop]
          simp
      · rw [decode_packets_go.eq_def, if_neg hil]
        simp
    · subst hR
      have hlt : trim_start < buffer.length := by
        have := congrArg List.length hdrop
        simp at this
        omega
      have hdrop1 : buffer.drop (trim_start + 1) = tl := by
        have h1 : buffer.drop (trim_start + 1) = (buffer.drop trim_start).drop 1 := by
          rw [List.drop_drop]
        rw [h1, hdrop, List.drop_succ_cons, List.drop_zero]
      have hfn : find_next_delimiter buffer (trim_start + 1) = none := by
        apply find_next_delimiter_no_end
        rw [hdrop1]
        exact htl
      rw [decode_packets_go.eq_def, if_pos (by omega)]
      split
      next trim_end heq =>
        rw [hfn] at heq
        cases heq
      next heq =>
        rw [if_pos hts, hdrop]
        simp
  | cons p Ps2 ih =>
    intro buffer idx trim_start acc R hdrop hidx hts hPs hR
    have hp : p ≠ [] := hPs p (by simp)
    rw [List.flatMap_cons, List.append_assoc] at hdrop
    have hdrop2 : buffer.drop trim_start
        = END :: (p.flatMap esc_byte ++ (END :: (Ps2.flatMap frame ++ R))) := by
      rw [hdrop]
      simp [frame]
    have hlen2 : buffer.length - trim_start
        = (p.flatMap esc_byte).length + ((Ps2.flatMap frame).length + R.length) + 2 := by
      have hl := congrArg List.length hdrop2
      simp only [List.length_drop, List.length_cons, List.length_append] at hl
      omega
    have hlt : trim_start < buffer.length := by omega
    have hdrop3 : buffer.drop (trim_start + 1)
        = p.flatMap esc_byte ++ (END :: (Ps2.flatMap frame ++ R)) := by
      have h1 : buffer.drop (trim_start + 1) = (buffer.drop trim_start).drop 1 := by
        rw [List.drop_drop]
      rw [h1, hdrop2, List.drop_succ_cons, List.drop_zero]
    have hfnd : find_next_delimiter buffer (trim_start + 1)
        = some (trim_start + 1 + (p.flatMap esc_byte).length) :=
      find_next_delimiter_found buffer (trim_start + 1) (p.flatMap esc_byte)
        (Ps2.flatMap frame ++ R) hdrop3 (flat_esc_ne_end p)
    have hslice : (buffer.drop trim_start).take
        (trim_start + 1 + (p.flatMap esc_byte).length - trim_start)
        = END :: p.flatMap esc_byte := by
      rw [hdrop2]
      have hq : trim_start + 1 + (p.flatMap esc_byte).length - trim_start
          = (p.flatMap esc_byte).length + 1 := by omega
      rw [hq, List.take_succ_cons, List.take_left]
    have hdrop4 : buffer.drop (trim_start + 1 + (p.flatMap esc_byte).length + 1)
        = Ps2.flatMap frame ++ R := by
      have h1 : buffer.drop (trim_start + 1 + (p.flatMap esc_byte).length + 1)
          = (buffer.drop trim_start).drop ((p.flatMap esc_byte).length + 2) := by
        rw [List.drop_drop]
        congr 1
        omega
      rw [h1, hdrop2, List.drop_succ_cons]
      have hsp : p.flatMap esc_byte ++ (END :: (Ps2.flatMap frame ++ R))
          = (p.flatMap esc_byte ++ [END]) ++ (Ps2.flatMap frame ++ R) := by
        simp
      rw [hsp]
      exact List.drop_left' (by simp)
    rw [decode_packets_go.eq_def, if_pos (by omega : idx < buffer.length)]
    split
    next trim_end heq =>
      rw [hfnd] at heq
      injection heq with heq2
      subst heq2
      rw [if_pos ⟨by omega, by omega⟩]
      simp only [hslice, simple_decode_frame p]
      rw [ih buffer (trim_start + 1 + (p.flatMap esc_byte).length + 1)
        (trim_start + 1 + (p.flatMap esc_byte).length + 1) (acc ++ [p]) R hdrop4
        (le_refl _) (by omega) (fun P hP => hPs P (by simp [hP])) hR]
      simp
    next heq =>
      rw [hfnd] at heq
      cases heq

/-- `decode_packets` on a buffer of fully delimited frames of nonempty
payloads followed by a remainder (empty, or `END` plus `END`-free bytes,
nonempty when there is no frame at all) returns exactly the payloads in
order and the remainder. -/
theorem decode_packets_spec (Ps : List (List Nat)) (R : List Nat)
    (hPs : ∀ P ∈ Ps, P ≠ [])
    (hR : R = [] ∨ ∃ tl, R = END :: tl ∧ (∀ x ∈ tl, x ≠ END))
    (hne : Ps ≠ [] ∨ ∃ tl, R = END :: tl ∧ tl ≠ []) :
    decode_packets (Ps.flatMap frame ++ R) = some (Ps, R) := by
  have hfd : find_delimiter (Ps.flatMap frame ++ R) = some (.ok 0) := by
    match Ps with
    | p :: Ps2 =>
      have hp : p ≠ [] := hPs p (by simp)
      obtain ⟨a, t, hhead, ha⟩ := flat_esc_head p hp
      have hshape : (p :: Ps2).flatMap frame ++ R
          = [] ++ (END :: a :: (t ++ [END] ++ (Ps2.flatMap frame ++ R))) := by
        rw [List.flatMap_cons]
        simp [frame, hhead]
      rw [hshape]
      have := find_delimiter_found [] a (t ++ [END] ++ (Ps2.flatMap frame ++ R))
        (by intro x hx; cases hx) ha
      simpa using this
    | [] =>
      rcases hne with hne | ⟨tl, hRe, htl⟩
      · exact absurd rfl hne
      · rcases hR with hR0 | ⟨tl2, hR2, htl2⟩
        · rw [hR0] at hRe
          cases hRe
        · match tl, htl, hRe with
          | c :: tl3, _, hRe =>
            have hc : c ≠ END := by
              apply htl2
              have : tl2 = c :: tl3 := by
                rw [hR2] at hRe
                injection hRe
              rw [this]
              simp
            have hshape : ([] : List (List Nat)).flatMap frame ++ R
                = [] ++ (END :: c :: tl3) := by
              simp [hRe]
            rw [hshape]
            have := find_delimiter_found [] c tl3 (by intro x hx; cases hx) hc
            simpa using this
  simp only [decode_packets, hfd]
  have hgo := decode_packets_go_spec Ps (Ps.flatMap frame ++ R) 0 0 [] R
    (by rw [List.drop_zero]) (le_refl 0) (Nat.zero_le _) hPs hR
  simpa using hgo

/-- Claim C3: `decode_packets` returns the decoded payloads of every
complete frame in the order their frames appear, and the remainder is
the bytes from the current start position to the buffer end when no
further delimiter is found (a delimiter followed by `END`-free bytes),
or empty when the last delimiter coincides with the buffer end. -/
theorem decode_packets_frames_spec (Ps : List (List Nat)) (R : List Nat)
    (h1 : Ps ≠ []) (h2 : ∀ P ∈ Ps, P ≠ [])
    (hR : R = [] ∨ ∃ tl, R = END :: tl ∧ (∀ x ∈ tl, x ≠ END)) :
    decode_packets (Ps.flatMap frame ++ R) = some (Ps, R) :=
  decode_packets_spec Ps R h2 hR (Or.inl h1)

/-- Witness for `decode_packets_frames_spec`: concrete scenario 4 of the
spec, two frames followed by the partial remainder `[0xC0, 0x01]`. -/
theorem decode_packets_frames_witness :
    (([[0x01, 0xDB, 0x49, 0xC0, 0x15], [0x02, 0xDB, 0x49, 0xC0, 0x15]] :
        List (List Nat)) ≠ []) ∧
    (∀ P ∈ ([[0x01, 0xDB, 0x49, 0xC0, 0x15], [0x02, 0xDB, 0x49, 0xC0, 0x15]] :
        List (List Nat)), P ≠ []) ∧
    decode_packets [0xC0, 0x01, 0xDB, 0xDD, 0x49, 0xDB, 0xDC, 0x15, 0xC0,
                    0xC0, 0x02, 0xDB, 0xDD, 0x49, 0xDB, 0xDC, 0x15, 0xC0, 0xC0, 0x01]
      = some ([[0x01, 0xDB, 0x49, 0xC0, 0x15], [0x02, 0xDB, 0x49, 0xC0, 0x15]],
          [0xC0, 0x01]) := by
  refine ⟨by decide, by decide, ?_⟩
  have h := decode_packets_frames_spec
    [[0x01, 0xDB, 0x49, 0xC0, 0x15], [0x02, 0xDB, 0x49, 0xC0, 0x15]] [0xC0, 0x01]
    (by decide) (by decide) (Or.inr ⟨[0x01], by decide, by decide⟩)
  have heq : ([[0x01, 0xDB, 0x49, 0xC0, 0x15], [0x02, 0xDB, 0x49, 0xC0, 0x15]] :
        List (List Nat)).flatMap frame ++ [0xC0, 0x01]
      = [0xC0, 0x01, 0xDB, 0xDD, 0x49, 0xDB, 0xDC, 0x15, 0xC0,
         0xC0, 0x02, 0xDB, 0xDD, 0x49, 0xDB, 0xDC, 0x15, 0xC0, 0xC0, 0x01] := by decide
  rw [heq] at h
  exact h

/-- Decomposition of a split point inside a sequence of frames: every
`k` with `1 ≤ k < length` falls either exactly on a frame boundary or
strictly inside one frame, `e` bytes of escaped payload past that
frame's opening delimiter. -/
theorem flat_frame_split (Ps : List (List Nat)) :
    ∀ k, (∀ P ∈ Ps, P ≠ []) → 1 ≤ k → k < (Ps.flatMap frame).length →
    (∃ Ps1 Ps2, Ps = Ps1 ++ Ps2 ∧ Ps1 ≠ [] ∧ Ps2 ≠ [] ∧
      k = (Ps1.flatMap frame).length) ∨
    (∃ Ps1 p Ps2 e e2, Ps = Ps1 ++ p :: Ps2 ∧ p.flatMap esc_byte = e ++ e2 ∧
      k = (Ps1.flatMap frame).length + 1 + e.length) := by
  induction Ps with
  | nil =>
    intro k _ _ hk
    simp [List.flatMap_nil] at hk
  | cons p Ps2 ih =>
    intro k hne h1 hk
    by_cases hcase : k < (frame p).length
    · right
      refine ⟨[], p, Ps2, (p.flatMap esc_byte).take (k - 1),
        (p.flatMap esc_byte).drop (k - 1), rfl,
        (List.take_append_drop _ _).symm, ?_⟩
      have hfl : (frame p).length = (p.flatMap esc_byte).length + 2 := by
        simp [frame]
      simp only [List.flatMap_nil, List.length_nil, List.length_take]
      omega
    · by_cases hceq : k = (frame p).length
      · left
        have hl : 1 ≤ (Ps2.flatMap frame).length := by
          rw [List.flatMap_cons, List.length_append] at hk
          omega
        refine ⟨[p], Ps2, rfl, by simp, ?_, ?_⟩
        · cases Ps2 with
          | nil => simp at hl
          | cons q qs => exact List.cons_ne_nil q qs
        · rw [hceq]
          simp
      · have hgt : (frame p).length < k := by omega
        have hk2 : k - (frame p).length < (Ps2.flatMap frame).length := by
          rw [List.flatMap_cons, List.length_append] at hk
          omega
        have hrec := ih (k - (frame p).length)
          (fun P hP => hne P (by simp [hP])) (by omega) hk2
        rcases hrec with ⟨Ps1, Ps2', heq, hne1, hne2, hkeq⟩ |
          ⟨Ps1, q, Ps2', e, e2, heq, hesc, hkeq⟩
        · left
          refine ⟨p :: Ps1, Ps2', by rw [heq, List.cons_append], by simp, hne2, ?_⟩
          rw [List.flatMap_cons, List.length_append]
          omega
        · right
          refine ⟨p :: Ps1, q, Ps2', e, e2, by rw [heq, List.cons_append], hesc, ?_⟩
          rw [List.flatMap_cons, List.length_append]
          omega

/-- Claim C8 (amended): for every framed multi-packet buffer and every
split point `k` with `2 ≤ k < length` (the first call must receive the
opening delimiter plus at least one byte, and the second call a
nonempty buffer -- splits at `0`, `1` or the full length make a call
panic, see `decode_packets_split_zero_fails`), running `decode_packets`
on the prefix and then on the first call's remainder concatenated with
the rest yields the same total packet sequence and the same final
remainder as one run over the whole buffer. -/
theorem decode_packets_split_invariance (Ps : List (List Nat)) (k : Nat)
    (h2 : ∀ P ∈ Ps, P ≠ []) (hk : 2 ≤ k) (hklt : k < (Ps.flatMap frame).length) :
    ∃ packs1 rem1 packs2,
      decode_packets ((Ps.flatMap frame).take k) = some (packs1, rem1) ∧
      decode_packets (rem1 ++ (Ps.flatMap frame).drop k) = some (packs2, []) ∧
      decode_packets (Ps.flatMap frame) = some (packs1 ++ packs2, []) ∧
      packs1 ++ packs2 = Ps := by
  have hPsne : Ps ≠ [] := by
    intro h
    rw [h] at hklt
    simp [List.flatMap_nil] at hklt
  have hwhole : decode_packets (Ps.flatMap frame) = some (Ps, []) := by
    have h := decode_packets_spec Ps [] h2 (Or.inl rfl) (Or.inl hPsne)
    simpa using h
  rcases flat_frame_split Ps k h2 (by omega) hklt with
    ⟨Ps1, Ps2, heq, hne1, hne2, hkeq⟩ | ⟨Ps1, p, Ps2, e, e2, heq, hesc, hkeq⟩
  · have hPs1 : ∀ P ∈ Ps1, P ≠ [] :=
      fun P hP => h2 P (by rw [heq]; exact List.mem_append_left _ hP)
    have hPs2 : ∀ P ∈ Ps2, P ≠ [] :=
      fun P hP => h2 P (by rw [heq]; exact List.mem_append_right _ hP)
    have hBsplit : Ps.flatMap frame = Ps1.flatMap frame ++ Ps2.flatMap frame := by
      rw [heq, List.flatMap_append]
    have htake : (Ps.flatMap frame).take k = Ps1.flatMap frame := by
      rw [hBsplit, hkeq, List.take_left]
    have hdrop : (Ps.flatMap frame).drop k = Ps2.flatMap frame := by
      rw [hBsplit, hkeq, List.drop_left]
    have hPP : Ps1 ++ Ps2 = Ps := heq.symm
    refine ⟨Ps1, [], Ps2, ?_, ?_, ?_, hPP⟩
    · rw [htake]
      have h := decode_packets_spec Ps1 [] hPs1 (Or.inl rfl) (Or.inl hne1)
      simpa using h
    · rw [hdrop, List.nil_append]
      have h := decode_packets_spec Ps2 [] hPs2 (Or.inl rfl) (Or.inl hne2)
      simpa using h
    · rw [hPP]
      exact hwhole
  · have hPs1 : ∀ P ∈ Ps1, P ≠ [] :=
      fun P hP => h2 P (by rw [heq]; exact List.mem_append_left _ hP)
    have hPs2' : ∀ P ∈ p :: Ps2, P ≠ [] :=
      fun P hP => h2 P (by rw [heq]; exact List.mem_append_right _ hP)
    have hEe : ∀ x ∈ e, x ≠ END :=
      fun x hx => flat_esc_ne_end p x (by rw [hesc]; exact List.mem_append_left _ hx)
    have hB : Ps.flatMap frame
        = (Ps1.flatMap frame ++ (END :: e)) ++ (e2 ++ ([END] ++ Ps2.flatMap frame)) := by
      rw [heq, List.flatMap_append, List.flatMap_cons]
      simp [frame, hesc, List.append_assoc]
    have hlenA : (Ps1.flatMap frame ++ (END :: e)).length = k := by
      simp only [List.length_append, List.length_cons]
      omega
    have htake : (Ps.flatMap frame).take k = Ps1.flatMap frame ++ (END :: e) := by
      rw [hB, ← hlenA, List.take_left]
    have hdrop : (Ps.flatMap frame).drop k = e2 ++ ([END] ++ Ps2.flatMap frame) := by
      rw [hB, ← hlenA, List.drop_left]
    have hcall1 : decode_packets (Ps1.flatMap frame ++ (END :: e))
        = some (Ps1, END :: e) := by
      apply decode_packets_spec Ps1 (END :: e) hPs1 (Or.inr ⟨e, rfl, hEe⟩)
      cases Ps1 with
      | nil =>
        refine Or.inr ⟨e, rfl, ?_⟩
        intro he
        rw [he] at hkeq
        simp at hkeq
        omega
      | cons q qs => exact Or.inl (List.cons_ne_nil q qs)
    have hcall2 : decode_packets ((END :: e) ++ (Ps.flatMap frame).drop k)
        = some (p :: Ps2, []) := by
      rw [hdrop]
      have hshape : (END :: e) ++ (e2 ++ ([END] ++ Ps2.flatMap frame))
          = (p :: Ps2).flatMap frame ++ [] := by
        rw [List.flatMap_cons]
        simp [frame, hesc, List.append_assoc]
      rw [hshape]
      exact decode_packets_spec (p :: Ps2) [] hPs2' (Or.inl rfl)
        (Or.inl (List.cons_ne_nil p Ps2))
    have hPP : Ps1 ++ p :: Ps2 = Ps := heq.symm
    refine ⟨Ps1, END :: e, p :: Ps2, by rw [htake]; exact hcall1, hcall2, ?_, hPP⟩
    rw [hPP]
    exact hwhole

/-- Counterexample to claim C8 as stated: on the framed two-packet
buffer `[0xC0,0x01,0xC0,0xC0,0x02,0xC0]` the whole-buffer run yields
both packets, but the split at `k = 0` makes the first call run
`decode_packets` on the empty buffer, which panics on
`find_delimiter(..).unwrap()`, so the combined split run does not
reproduce the whole-buffer result at every split point. -/
theorem decode_packets_split_zero_fails :
    decode_packets (([[0x01], [0x02]] : List (List Nat)).flatMap frame)
      = some ([[0x01], [0x02]], []) ∧
    decode_packets ((([[0x01], [0x02]] : List (List Nat)).flatMap frame).take 0)
      = none := by
  constructor
  · have h := decode_packets_spec [[0x01], [0x02]] [] (by decide)
      (Or.inl rfl) (Or.inl (by decide))
    simpa using h
  · rw [List.take_zero]
    decide

/-- Witness for `decode_packets_split_invariance` at the two-packet
buffer `[[0x01],[0x02]]` and split point `k = 3` (the frame boundary). -/
theorem decode_packets_split_invariance_witness :
    (∀ P ∈ ([[0x01], [0x02]] : List (List Nat)), P ≠ []) ∧ 2 ≤ 3 ∧
    3 < (([[0x01], [0x02]] : List (List Nat)).flatMap frame).length ∧
    ∃ packs1 rem1 packs2,
      decode_packets ((([[0x01], [0x02]] : List (List Nat)).flatMap frame).take 3)
        = some (packs1, rem1) ∧
      decode_packets (rem1 ++ (([[0x01], [0x02]] : List (List Nat)).flatMap frame).drop 3)
        = some (packs2, []) ∧
      decode_packets (([[0x01], [0x02]] : List (List Nat)).flatMap frame)
        = some (packs1 ++ packs2, []) ∧
      packs1 ++ packs2 = [[0x01], [0x02]] :=
  ⟨by decide, by decide, by decide,
    decode_packets_split_invariance [[0x01], [0x02]] 3 (by decide) (by decide) (by decide)⟩

end SimpleSlip
